import Mathlib

/-!
# Verification of the vectorshift backend graph analysis

A shallow embedding of `src/backend/main.py` (the `check_dag` function and the
`parse_pipeline` request handler) together with proofs of the behavioural
properties of the service: correctness of the Kahn-style acyclicity check,
tolerance of dangling edges, the duplicate-id collapse, termination of the
work-queue loop, the error boundary, and independence of the result from
metadata fields.

Python dictionaries are modelled as association lists (`List (String × α)`)
with insertion-order semantics: assignment to an existing key replaces the
value in place, assignment to a fresh key appends at the end, and iteration
follows the list order.  This matches CPython's documented dict behaviour.
The `while queue:` loop is modelled with explicit fuel equal to the number of
dictionary keys; the theorem `kahnLoop_fuel_stable` proves that the queue
always empties within that bound, so the fuelled model coincides with the
unbounded loop.
-/

set_option maxHeartbeats 1000000
set_option linter.unnecessarySeqFocus false

namespace VectorShift

/-- `class Node(BaseModel)` from main.py.  The `position` and `data` fields are
open mappings which the analysis never reads; their value types are modelled by
concrete placeholder types, which is harmless because the noninterference
theorem for claim C8 proves the analysis ignores them. -/
structure Node where
  id : String
  type : String
  position : List (String × Int)
  data : List (String × String)

/-- `class Edge(BaseModel)` from main.py; `sourceHandle`/`targetHandle` default
to `None`. -/
structure Edge where
  id : String
  source : String
  target : String
  sourceHandle : Option String := none
  targetHandle : Option String := none

/-- `class PipelineRequest(BaseModel)` from main.py. -/
structure PipelineRequest where
  nodes : List Node
  edges : List Edge

/-! ## Python dict primitives

Association-list model of a Python `dict` with string keys. -/

/-- Python `d[k] = v`: overwrite in place if the key exists, else append. -/
def dinsert : List (String × α) → String → α → List (String × α)
  | [], k, v => [(k, v)]
  | (a, w) :: rest, k, v =>
    if a = k then (a, v) :: rest else (a, w) :: dinsert rest k v

/-- Python `d[k]` with an explicit default.  Every lookup performed by the
translated code happens at a key that is present (proved in the development),
so the default never influences the result. -/
def dget (dflt : α) : List (String × α) → String → α
  | [], _ => dflt
  | (a, w) :: rest, k => if a = k then w else dget dflt rest k

/-- Python in-place modification `d[k] = f(d[k])` (e.g. `d[k] += 1`). -/
def dupd : List (String × α) → String → (α → α) → List (String × α)
  | [], _, _ => []
  | (a, w) :: rest, k, f =>
    if a = k then (a, f w) :: rest else (a, w) :: dupd rest k f

/-- The keys of a dict, in iteration (insertion) order. -/
def dkeys (d : List (String × α)) : List String := d.map Prod.fst

/-! ## The translated code of `check_dag` (main.py lines 64-109) -/

/-- Lines 76-79: `for node in nodes: graph[node.id] = []; in_degree[node.id] = 0`. -/
def initLoop : (List (String × List String) × List (String × Int)) → List Node →
    (List (String × List String) × List (String × Int))
  | st, [] => st
  | (g, d), n :: rest => initLoop (dinsert g n.id [], dinsert d n.id 0) rest

/-- Lines 82-85: for each edge, if both endpoints are keys of `graph`, append the
target to `graph[source]` and increment `in_degree[target]`. -/
def edgeLoop : (List (String × List String) × List (String × Int)) → List Edge →
    (List (String × List String) × List (String × Int))
  | st, [] => st
  | (g, d), e :: rest =>
    if e.source ∈ dkeys g ∧ e.target ∈ dkeys g then
      edgeLoop (dupd g e.source (fun l => l ++ [e.target]),
                dupd d e.target (fun x => x + 1)) rest
    else
      edgeLoop (g, d) rest

/-- Lines 89-92: seed the queue with every key of `in_degree` whose value is 0,
in dict iteration order. -/
def seedLoop (d : List (String × Int)) : List String :=
  (dkeys d).filter (fun k => decide (dget 0 d k = 0))

/-- Lines 101-104: `for neighbor in graph[current]: in_degree[neighbor] -= 1;
if in_degree[neighbor] == 0: queue.append(neighbor)`. -/
def neighborLoop : List String → List (String × Int) → List String →
    (List (String × Int) × List String)
  | [], d, q => (d, q)
  | n :: rest, d, q =>
    let d2 := dupd d n (fun x => x - 1)
    if dget 0 d2 n = 0 then neighborLoop rest d2 (q ++ [n])
    else neighborLoop rest d2 q

/-- Lines 96-105: the `while queue:` loop, popping the front, incrementing the
processed counter and running the neighbor loop.  The loop is modelled with
fuel; `kahnLoop_fuel_stable` shows the queue empties within `(dkeys d).length`
iterations, so with that fuel this is exactly the unbounded while loop. -/
def kahnLoop (g : List (String × List String)) : Nat → List (String × Int) →
    List String → Nat → (List (String × Int) × List String × Nat)
  | _, d, [], c => (d, [], c)
  | 0, d, q, c => (d, q, c)
  | fuel + 1, d, current :: rest, c =>
    let st := neighborLoop (dget [] g current) d rest
    kahnLoop g fuel st.1 st.2 (c + 1)

/-- The adjacency and in-degree dicts built by lines 72-85. -/
def builtMaps (nodes : List Node) (edges : List Edge) :
    List (String × List String) × List (String × Int) :=
  edgeLoop (initLoop ([], []) nodes) edges

/-- `check_dag(nodes, edges)`, main.py lines 64-109.  Returns `True` when the
node list or the edge list is empty; otherwise runs Kahn's algorithm and
compares the processed counter with `len(nodes)`. -/
def check_dag (nodes : List Node) (edges : List Edge) : Bool :=
  if nodes.isEmpty || edges.isEmpty then true
  else
    (kahnLoop (builtMaps nodes edges).1 (dkeys (builtMaps nodes edges).2).length
      (builtMaps nodes edges).2 (seedLoop (builtMaps nodes edges).2) 0).2.2
      == nodes.length

/-! ## The translated code of `parse_pipeline` (main.py lines 41-62) -/

/-- The success payload returned by the endpoint. -/
structure ParseResult where
  num_nodes : Nat
  num_edges : Nat
  is_dag : Bool
deriving DecidableEq

/-- `HTTPException(status_code, detail)` raised at the boundary. -/
structure HTTPError where
  status_code : Nat
  detail : String
deriving DecidableEq

/-- The body of the `try:` block (lines 50-60).  In the embedding every step is
a total function, so the body itself never fails; it is typed in `Except` to
express the handler's exception boundary faithfully. -/
def analyzeBody (p : PipelineRequest) : Except String ParseResult :=
  Except.ok
    { num_nodes := p.nodes.length
      num_edges := p.edges.length
      is_dag := check_dag p.nodes p.edges }

/-- Lines 49-62: the `try/except Exception` boundary.  A raised exception with
message `e` becomes `HTTPException(status_code=500, detail=f"Error parsing
pipeline: {e}")`; a normal return passes through. -/
def tryBoundary (body : Except String ParseResult) : Except HTTPError ParseResult :=
  match body with
  | Except.ok r => Except.ok r
  | Except.error e =>
    Except.error { status_code := 500, detail := "Error parsing pipeline: " ++ e }

/-- `parse_pipeline(pipeline)`, main.py lines 41-62. -/
def parse_pipeline (p : PipelineRequest) : Except HTTPError ParseResult :=
  tryBoundary (analyzeBody p)

/-! ## Derived notions used in the statements and proofs -/

/-- The sequence of node ids of a request, in submission order. -/
def nodeIds (nodes : List Node) : List String := nodes.map Node.id

/-- The key set of the built dictionaries: node ids with later duplicates
collapsed (first occurrence kept), exactly as Python dict insertion behaves. -/
def theKeys (nodes : List Node) : List String :=
  dkeys (initLoop ([], []) nodes).2

/-- The submitted edges as (source, target) pairs. -/
def edgePairs (edges : List Edge) : List (String × String) :=
  edges.map (fun e => (e.source, e.target))

/-- The edges the code keeps: both endpoints are keys of the built dicts. -/
def validPairs (nodes : List Node) (edges : List Edge) : List (String × String) :=
  (edgePairs edges).filter
    (fun p => decide (p.1 ∈ theKeys nodes) && decide (p.2 ∈ theKeys nodes))

/-- The edges whose endpoints both lie in the submitted node id set; this is
the edge set of the graph described in the claims. -/
def idPairs (nodes : List Node) (edges : List Edge) : List (String × String) :=
  (edgePairs edges).filter
    (fun p => decide (p.1 ∈ nodeIds nodes) && decide (p.2 ∈ nodeIds nodes))

/-- The adjacency list of `u`: the targets of the valid edges with source `u`,
in edge submission order. -/
def adjOf (E : List (String × String)) (u : String) : List String :=
  (E.filter (fun p => decide (p.1 = u))).map Prod.snd

/-- The number of edges of `E` that point into `v` from a source outside `P`.
The running in-degree counter of `v` always equals `countE E v P` where `P` is
the list of already-processed nodes. -/
def countE (E : List (String × String)) (v : String) (P : List String) : Nat :=
  E.countP (fun p => decide (p.2 = v) && decide (p.1 ∉ P))

/-- Position of the first occurrence of `x` in `l` (used to express that the
processed list is a topological order). -/
def posIn : List String → String → Nat
  | [], _ => 0
  | a :: t, x => if a = x then 0 else posIn t x + 1

/-- `P` is topologically sorted for `E`: whenever the target of an edge has
been processed, its source was processed strictly earlier. -/
def TopoSorted (E : List (String × String)) (P : List String) : Prop :=
  ∀ p ∈ E, p.2 ∈ P → p.1 ∈ P ∧ posIn P p.1 < posIn P p.2

/-- A closed walk in `E`: a start vertex `a`, a chain of edges through `c`, and
a closing edge from the last vertex back to `a`.  A self-loop is the closed
walk with `c = []`.  A directed graph contains a cycle iff it has a closed
walk. -/
def hasCycle (E : List (String × String)) : Prop :=
  ∃ (a : String) (c : List String),
    List.Chain (fun x y => (x, y) ∈ E) a c ∧ (c.getLastD a, a) ∈ E

/-- Ghost variant of `kahnLoop` recording the list of popped node ids instead
of the processed counter. -/
def kahnLoopG (g : List (String × List String)) : Nat → List (String × Int) →
    List String → (List (String × Int) × List String × List String)
  | _, d, [] => (d, [], [])
  | 0, d, q => (d, q, [])
  | fuel + 1, d, current :: rest =>
    let st := neighborLoop (dget [] g current) d rest
    let res := kahnLoopG g fuel st.1 st.2
    (res.1, res.2.1, current :: res.2.2)

/-! ## Lemmas about the dict primitives -/

theorem dkeys_map (K : List String) (F : String → α) :
    dkeys (K.map (fun x => (x, F x))) = K := by
  simp [dkeys, List.map_map, Function.comp_def]

theorem dget_map (dflt : α) (F : String → α) {K : List String} {x : String}
    (hx : x ∈ K) : dget dflt (K.map (fun y => (y, F y))) x = F x := by
  induction K with
  | nil => cases hx
  | cons a t ih =>
    by_cases h : a = x
    · subst h; simp [dget]
    · rcases List.mem_cons.mp hx with h' | h'
      · exact absurd h'.symm h
      · simp only [List.map_cons, dget, if_neg h]
        exact ih h'

theorem dinsert_map_const (K : List String) (k : String) (c : α) :
    dinsert (K.map (fun x => (x, c))) k c =
      (if k ∈ K then K else K ++ [k]).map (fun x => (x, c)) := by
  induction K with
  | nil => simp [dinsert]
  | cons a t ih =>
    by_cases h : a = k
    · subst h; simp [dinsert]
    · simp only [List.map_cons, dinsert, if_neg h]
      rw [ih]
      by_cases hk : k ∈ t
      · simp [hk, List.mem_cons, Ne.symm h]
      · simp [hk, List.mem_cons, Ne.symm h]

theorem dupd_map {K : List String} (hK : K.Nodup) (F : String → α) (k : String)
    (f : α → α) :
    dupd (K.map (fun x => (x, F x))) k f =
      K.map (fun x => (x, if x = k then f (F x) else F x)) := by
  induction K with
  | nil => rfl
  | cons a t ih =>
    rcases List.nodup_cons.mp hK with ⟨hat, ht⟩
    by_cases h : a = k
    · subst h
      simp only [List.map_cons, dupd, if_pos rfl, if_pos trivial]
      congr 1
      refine (List.map_congr_left ?_).symm
      intro x hx
      have : x ≠ a := fun hxa => hat (hxa ▸ hx)
      simp [this]
    · simp only [List.map_cons, dupd, if_neg h, ih ht]

/-! ## Lemmas about `posIn` -/

theorem posIn_lt_length {P : List String} {x : String} (hx : x ∈ P) :
    posIn P x < P.length := by
  induction P with
  | nil => cases hx
  | cons a t ih =>
    by_cases h : a = x
    · simp [posIn, h]
    · rcases List.mem_cons.mp hx with h' | h'
      · exact absurd h'.symm h
      · simpa [posIn, h] using ih h'

theorem posIn_append_of_mem {P : List String} {x : String} (hx : x ∈ P)
    (l : List String) : posIn (P ++ l) x = posIn P x := by
  induction P with
  | nil => cases hx
  | cons a t ih =>
    by_cases h : a = x
    · simp [posIn, h]
    · rcases List.mem_cons.mp hx with h' | h'
      · exact absurd h'.symm h
      · simp [posIn, h, ih h']

theorem posIn_append_self {P : List String} {x : String} (hx : x ∉ P) :
    posIn (P ++ [x]) x = P.length := by
  induction P with
  | nil => simp [posIn]
  | cons a t ih =>
    have h : a ≠ x := fun h => hx (h ▸ List.mem_cons_self a t)
    have hx' : x ∉ t := fun h => hx (List.mem_cons_of_mem a h)
    simp [posIn, h, ih hx']

/-! ## Characterization of the ingestion phase -/

@[simp] theorem nodeIds_nil : nodeIds [] = [] := rfl

@[simp] theorem nodeIds_cons (n : Node) (rest : List Node) :
    nodeIds (n :: rest) = n.id :: nodeIds rest := rfl

theorem initLoop_char :
    ∀ (ns : List Node) (K₀ : List String), K₀.Nodup →
      ∃ K₁ : List String,
        initLoop (K₀.map (fun x => (x, ([] : List String))),
                  K₀.map (fun x => (x, (0 : Int)))) ns
          = ((K₀ ++ K₁).map (fun x => (x, ([] : List String))),
             (K₀ ++ K₁).map (fun x => (x, (0 : Int))))
        ∧ (K₀ ++ K₁).Nodup
        ∧ (∀ x, x ∈ K₀ ++ K₁ ↔ x ∈ K₀ ∨ x ∈ nodeIds ns) := by
  intro ns
  induction ns with
  | nil =>
    intro K₀ h
    exact ⟨[], by simp [initLoop], by simpa using h, by simp [nodeIds]⟩
  | cons n rest ih =>
    intro K₀ h
    by_cases hmem : n.id ∈ K₀
    · obtain ⟨K₁, heq, hnd, hiff⟩ := ih K₀ h
      refine ⟨K₁, ?_, hnd, ?_⟩
      · simpa [initLoop, dinsert_map_const, hmem] using heq
      · intro x
        rw [hiff x]
        constructor
        · rintro (hx | hx)
          · exact Or.inl hx
          · exact Or.inr (by simp [hx])
        · rintro (hx | hx)
          · exact Or.inl hx
          · rcases List.mem_cons.mp (by simpa using hx) with h' | h'
            · exact Or.inl (h' ▸ hmem)
            · exact Or.inr h'
    · have h' : (K₀ ++ [n.id]).Nodup := by
        simp [List.nodup_append, h, hmem]
      obtain ⟨K₁, heq, hnd, hiff⟩ := ih (K₀ ++ [n.id]) h'
      refine ⟨[n.id] ++ K₁, ?_, by simpa using hnd, ?_⟩
      · simpa [initLoop, dinsert_map_const, hmem, List.append_assoc] using heq
      · intro x
        have := hiff x
        simp only [List.append_assoc] at this ⊢
        rw [this]
        simp [nodeIds, List.mem_append, List.mem_cons, or_assoc]

/-- The key list of the built dictionaries: nodup, and a string is a key iff it
is one of the submitted node ids. -/
theorem theKeys_spec (nodes : List Node) :
    (initLoop ([], []) nodes).1 = (theKeys nodes).map (fun x => (x, ([] : List String)))
    ∧ (initLoop ([], []) nodes).2 = (theKeys nodes).map (fun x => (x, (0 : Int)))
    ∧ (theKeys nodes).Nodup
    ∧ (∀ x, x ∈ theKeys nodes ↔ x ∈ nodeIds nodes) := by
  obtain ⟨K₁, heq, hnd, hiff⟩ := initLoop_char nodes [] List.nodup_nil
  have hkeys : theKeys nodes = K₁ := by
    simp only [theKeys]
    rw [show (initLoop ([], []) nodes).2 = K₁.map (fun x => (x, (0 : Int))) by
      simpa using congrArg Prod.snd heq]
    exact dkeys_map _ _
  refine ⟨?_, ?_, ?_, ?_⟩
  · rw [hkeys]; simpa using congrArg Prod.fst heq
  · rw [hkeys]; simpa using congrArg Prod.snd heq
  · rw [hkeys]; simpa using hnd
  · intro x; rw [hkeys]; simpa using hiff x

/-! ## Characterization of the edge ingestion loop -/

/-- The valid (source, target) pairs of an edge list relative to a key set. -/
def keyPairs (K : List String) (es : List Edge) : List (String × String) :=
  (edgePairs es).filter (fun p => decide (p.1 ∈ K) && decide (p.2 ∈ K))

@[simp] theorem edgePairs_nil : edgePairs [] = [] := rfl

@[simp] theorem edgePairs_cons (e : Edge) (rest : List Edge) :
    edgePairs (e :: rest) = (e.source, e.target) :: edgePairs rest := rfl

theorem keyPairs_cons_valid {K : List String} {e : Edge} (rest : List Edge)
    (h : e.source ∈ K ∧ e.target ∈ K) :
    keyPairs K (e :: rest) = (e.source, e.target) :: keyPairs K rest := by
  simp [keyPairs, List.filter_cons, h.1, h.2]

theorem keyPairs_cons_invalid {K : List String} {e : Edge} (rest : List Edge)
    (h : ¬(e.source ∈ K ∧ e.target ∈ K)) :
    keyPairs K (e :: rest) = keyPairs K rest := by
  rcases Decidable.not_and_iff_or_not.mp h with h' | h' <;>
    simp [keyPairs, List.filter_cons, h']

theorem validPairs_eq_keyPairs (nodes : List Node) (edges : List Edge) :
    validPairs nodes edges = keyPairs (theKeys nodes) edges := rfl

theorem adjOf_nil (u : String) : adjOf [] u = [] := rfl

theorem adjOf_cons (p : String × String) (E : List (String × String)) (u : String) :
    adjOf (p :: E) u = if p.1 = u then p.2 :: adjOf E u else adjOf E u := by
  by_cases h : p.1 = u <;> simp [adjOf, List.filter_cons, h]

theorem edgeLoop_char {K : List String} (hK : K.Nodup) :
    ∀ (es : List Edge) (A : String → List String) (D : String → Int),
      edgeLoop (K.map (fun u => (u, A u)), K.map (fun v => (v, D v))) es
        = (K.map (fun u => (u, A u ++ adjOf (keyPairs K es) u)),
           K.map (fun v => (v, D v +
             ((keyPairs K es).countP (fun p => decide (p.2 = v)) : Int)))) := by
  intro es
  induction es with
  | nil =>
    intro A D
    simp [edgeLoop, keyPairs, adjOf]
  | cons e rest ih =>
    intro A D
    by_cases hv : e.source ∈ K ∧ e.target ∈ K
    · have hcond : e.source ∈ dkeys (K.map (fun u => (u, A u)))
          ∧ e.target ∈ dkeys (K.map (fun u => (u, A u))) := by
        rw [dkeys_map]; exact hv
      simp only [edgeLoop, if_pos hcond]
      rw [dupd_map hK, dupd_map hK, ih]
      rw [keyPairs_cons_valid rest hv]
      refine Prod.ext ?_ ?_
      · refine List.map_congr_left ?_
        intro u hu
        rw [adjOf_cons]
        by_cases h : u = e.source
        · subst h
          simp [List.append_assoc]
        · have h2 : e.source ≠ u := fun hh => h hh.symm
          simp [h, h2]
      · refine List.map_congr_left ?_
        intro v hv'
        rw [List.countP_cons]
        by_cases h : v = e.target
        · subst h
          simp only [decide_eq_true_eq, if_true, eq_self_iff_true]
          refine congrArg (Prod.mk e.target) ?_
          push_cast
          ring
        · have h' : ((e.source, e.target).2 : String) ≠ v := fun hh => h hh.symm
          simp [h, h']
    · have hcond : ¬(e.source ∈ dkeys (K.map (fun u => (u, A u)))
          ∧ e.target ∈ dkeys (K.map (fun u => (u, A u)))) := by
        rw [dkeys_map]; exact hv
      simp only [edgeLoop, if_neg hcond]
      rw [ih, keyPairs_cons_invalid rest hv]

/-- The full ingestion (lines 72-85): the built adjacency dict maps each key to
the targets of the valid edges leaving it, in submission order; the built
in-degree dict maps each key to the number of valid edges entering it. -/
theorem builtMaps_char (nodes : List Node) (edges : List Edge) :
    builtMaps nodes edges
      = ((theKeys nodes).map (fun u => (u, adjOf (validPairs nodes edges) u)),
         (theKeys nodes).map (fun v => (v,
           ((validPairs nodes edges).countP (fun p => decide (p.2 = v)) : Int)))) := by
  obtain ⟨h1, h2, hnd, _⟩ := theKeys_spec nodes
  have := edgeLoop_char hnd edges (fun _ => ([] : List String)) (fun _ => (0 : Int))
  simp only [builtMaps]
  rw [show initLoop ([], []) nodes
      = ((theKeys nodes).map (fun x => (x, ([] : List String))),
         (theKeys nodes).map (fun x => (x, (0 : Int)))) from
    Prod.ext (by rw [h1]) (by rw [h2])]
  rw [this, validPairs_eq_keyPairs]
  simp

/-! ## Seeding and counting lemmas -/

theorem seedLoop_char (K : List String) (D : String → Int) :
    seedLoop (K.map (fun v => (v, D v))) = K.filter (fun k => decide (D k = 0)) := by
  unfold seedLoop
  rw [dkeys_map]
  refine List.filter_congr ?_
  intro x hx
  rw [dget_map _ _ hx]

/-- Number of occurrences of `v` in a list of strings. -/
def countOcc (v : String) (l : List String) : Nat :=
  l.countP (fun x => decide (x = v))

@[simp] theorem countOcc_nil (v : String) : countOcc v [] = 0 := rfl

theorem countOcc_cons (v a : String) (l : List String) :
    countOcc v (a :: l) = countOcc v l + if a = v then 1 else 0 := by
  by_cases h : a = v <;> simp [countOcc, List.countP_cons, h]

theorem count_adjOf (E : List (String × String)) (u v : String) :
    countOcc v (adjOf E u) = E.countP (fun p => decide (p.1 = u) && decide (p.2 = v)) := by
  induction E with
  | nil => rfl
  | cons p t ih =>
    rw [adjOf_cons]
    by_cases h1 : p.1 = u <;> by_cases h2 : p.2 = v <;>
      simp [h1, h2, countOcc_cons, List.countP_cons, ← ih]

theorem countP_split {α : Type} (f g h : α → Bool) :
    ∀ l : List α,
      (∀ a ∈ l, (if f a then (1 : Nat) else 0)
        = (if g a then (1 : Nat) else 0) + (if h a then (1 : Nat) else 0)) →
      l.countP f = l.countP g + l.countP h := by
  intro l
  induction l with
  | nil => intro _; rfl
  | cons a t ih =>
    intro hp
    rw [List.countP_cons, List.countP_cons, List.countP_cons,
      ih (fun x hx => hp x (List.mem_cons_of_mem a hx))]
    have := hp a (List.mem_cons_self a t)
    omega

theorem countE_pop {E : List (String × String)} {cur : String} {P : List String}
    (hcur : cur ∉ P) (v : String) :
    countE E v P = countE E v (P ++ [cur]) + countOcc v (adjOf E cur) := by
  rw [count_adjOf]
  refine countP_split _ _ _ E ?_
  intro p _
  by_cases h3 : p.1 ∈ P
  · have h2 : p.1 ≠ cur := fun hh => hcur (hh ▸ h3)
    by_cases h1 : p.2 = v <;> simp [h1, h2, h3, List.mem_append]
  · by_cases h1 : p.2 = v <;> by_cases h2 : p.1 = cur <;>
      simp [h1, h2, h3, List.mem_append] <;> exact hcur

theorem countE_zero_sources {E : List (String × String)} {v : String}
    {P : List String} (h : countE E v P = 0) :
    ∀ p ∈ E, p.2 = v → p.1 ∈ P := by
  intro p hp hpv
  have h2 := List.countP_eq_zero.mp h p hp
  by_contra hnp
  apply h2
  simp [hpv, hnp]

/-! ## The loop invariant -/

/-- Invariant of the Kahn loop, stated at a point where the node `P.getLast`
has just been popped and the decrements for the suffix `ns` of its adjacency
list are still pending.  `P` is the list of popped ("processed") nodes in
order, `q` the current queue, `d` the current in-degree dict.  The outer-loop
invariant is the special case `ns = []`. -/
structure KahnInv (K : List String) (E : List (String × String))
    (P ns : List String) (d : List (String × Int)) (q : List String) : Prop where
  nodupA : (P ++ q).Nodup
  subA : ∀ x ∈ P ++ q, x ∈ K
  subNs : ∀ x ∈ ns, x ∈ K
  degForm : d = K.map (fun v => (v, (↑(countE E v P + countOcc v ns) : Int)))
  memIff : ∀ v ∈ K, (v ∈ P ++ q ↔ countE E v P + countOcc v ns = 0)
  topo : TopoSorted E P

theorem neighborLoop_inv {K : List String} {E : List (String × String)}
    (hK : K.Nodup) :
    ∀ (ns : List String) (d : List (String × Int)) (q P : List String),
      KahnInv K E P ns d q →
      KahnInv K E P [] (neighborLoop ns d q).1 (neighborLoop ns d q).2 := by
  intro ns
  induction ns with
  | nil =>
    intro d q P h
    simpa [neighborLoop] using h
  | cons n rest ih =>
    intro d q P h
    have hnK : n ∈ K := h.subNs n (List.mem_cons_self n rest)
    have hd2 : dupd d n (fun x => x - 1)
        = K.map (fun v => (v, (↑(countE E v P + countOcc v rest) : Int))) := by
      rw [h.degForm, dupd_map hK]
      refine List.map_congr_left ?_
      intro x hx
      by_cases hxn : x = n
      · subst hxn
        simp only [if_pos rfl, countOcc_cons, if_pos rfl]
        refine congrArg (Prod.mk x) ?_
        push_cast
        ring
      · have hxn2 : ¬n = x := fun hh => hxn hh.symm
        simp [hxn, hxn2, countOcc_cons]
    have hget : dget 0 (dupd d n (fun x => x - 1)) n
        = (↑(countE E n P + countOcc n rest) : Int) := by
      rw [hd2]; exact dget_map _ _ hnK
    have hnotA : n ∉ P ++ q := by
      intro hmem
      have := (h.memIff n hnK).mp hmem
      rw [countOcc_cons, if_pos rfl] at this
      omega
    simp only [neighborLoop]
    rw [hget, hd2]
    by_cases hz : countE E n P + countOcc n rest = 0
    · rw [if_pos (by exact_mod_cast congrArg Nat.cast hz)]
      apply ih
      refine ⟨?_, ?_, ?_, rfl, ?_, h.topo⟩
      · rw [← List.append_assoc, List.nodup_append]
        refine ⟨h.nodupA, List.nodup_singleton n, ?_⟩
        intro x hx hxn
        rw [List.mem_singleton] at hxn
        exact hnotA (hxn ▸ hx)
      · intro x hx
        rw [← List.append_assoc, List.mem_append] at hx
        rcases hx with hx | hx
        · exact h.subA x hx
        · rw [List.mem_singleton] at hx
          exact hx ▸ hnK
      · exact fun x hx => h.subNs x (List.mem_cons_of_mem n hx)
      · intro v hv
        rw [← List.append_assoc, List.mem_append, List.mem_singleton]
        by_cases hvn : v = n
        · subst hvn
          simp [hz]
        · have : countOcc v (n :: rest) = countOcc v rest := by
            rw [countOcc_cons, if_neg (fun hh => hvn hh.symm), Nat.add_zero]
          rw [← this, or_iff_left hvn]
          exact h.memIff v hv
    · rw [if_neg (by exact_mod_cast fun hh => hz (Nat.cast_injective hh))]
      apply ih
      refine ⟨h.nodupA, h.subA, ?_, rfl, ?_, h.topo⟩
      · exact fun x hx => h.subNs x (List.mem_cons_of_mem n hx)
      · intro v hv
        by_cases hvn : v = n
        · subst hvn
          constructor
          · intro hmem; exact absurd hmem hnotA
          · intro hh; exact absurd hh hz
        · have : countOcc v (n :: rest) = countOcc v rest := by
            rw [countOcc_cons, if_neg (fun hh => hvn hh.symm), Nat.add_zero]
          rw [← this]
          exact h.memIff v hv

/-! ## The outer loop -/

theorem kahnLoopG_nilq (g : List (String × List String)) (fuel : Nat)
    (d : List (String × Int)) : kahnLoopG g fuel d [] = (d, [], []) := by
  cases fuel <;> rfl

theorem kahnLoop_nilq (g : List (String × List String)) (fuel : Nat)
    (d : List (String × Int)) (c : Nat) : kahnLoop g fuel d [] c = (d, [], c) := by
  cases fuel <;> rfl

/-- The code's counter loop and the ghost loop agree: the counter ends at its
start value plus the number of popped nodes. -/
theorem kahnLoop_eq_ghost (g : List (String × List String)) :
    ∀ (fuel : Nat) (d : List (String × Int)) (q : List String) (c : Nat),
      kahnLoop g fuel d q c
        = ((kahnLoopG g fuel d q).1, (kahnLoopG g fuel d q).2.1,
           c + (kahnLoopG g fuel d q).2.2.length) := by
  intro fuel
  induction fuel with
  | zero =>
    intro d q c
    cases q <;> simp [kahnLoop, kahnLoopG]
  | succ n ih =>
    intro d q c
    cases q with
    | nil => simp [kahnLoop_nilq, kahnLoopG_nilq]
    | cons cur rest =>
      simp only [kahnLoop, kahnLoopG]
      rw [ih]
      refine congrArg (Prod.mk _) (congrArg (Prod.mk _) ?_)
      simp [List.length_cons]
      omega

/-- Extra fuel does not change the result once the queue has emptied. -/
theorem kahnLoopG_fuel_add (g : List (String × List String)) :
    ∀ (fuel : Nat) (d : List (String × Int)) (q : List String),
      (kahnLoopG g fuel d q).2.1 = [] →
      ∀ m, kahnLoopG g (fuel + m) d q = kahnLoopG g fuel d q := by
  intro fuel
  induction fuel with
  | zero =>
    intro d q h m
    cases q with
    | nil => rw [kahnLoopG_nilq, kahnLoopG_nilq]
    | cons cur rest => simp [kahnLoopG] at h
  | succ n ih =>
    intro d q h m
    cases q with
    | nil => rw [kahnLoopG_nilq, kahnLoopG_nilq]
    | cons cur rest =>
      rw [show n + 1 + m = (n + m) + 1 by omega]
      simp only [kahnLoopG] at h ⊢
      rw [ih _ _ h m]

theorem nodup_length_le {l K : List String} (hl : l.Nodup) (hK : K.Nodup)
    (hsub : ∀ x ∈ l, x ∈ K) : l.length ≤ K.length := by
  have h1 : l.toFinset.card = l.length := List.toFinset_card_of_nodup hl
  have h2 : K.toFinset.card = K.length := List.toFinset_card_of_nodup hK
  have h3 : l.toFinset ⊆ K.toFinset := by
    intro x hx
    rw [List.mem_toFinset] at hx ⊢
    exact hsub x hx
  calc l.length = l.toFinset.card := h1.symm
    _ ≤ K.toFinset.card := Finset.card_le_card h3
    _ = K.length := h2

theorem mem_adjOf {E : List (String × String)} {u x : String}
    (hx : x ∈ adjOf E u) : ∃ p ∈ E, p.1 = u ∧ p.2 = x := by
  simp only [adjOf, List.mem_map, List.mem_filter, decide_eq_true_eq] at hx
  obtain ⟨p, ⟨hpE, hpu⟩, hpx⟩ := hx
  exact ⟨p, hpE, hpu, hpx⟩

/-- Main loop lemma: started from a state satisfying the invariant with enough
fuel (number of keys minus already-popped nodes), the loop drains the queue
completely and the invariant holds for the final popped list. -/
theorem kahnLoopG_inv {K : List String} {E : List (String × String)}
    (hK : K.Nodup) (HE : ∀ p ∈ E, p.1 ∈ K ∧ p.2 ∈ K)
    {g : List (String × List String)} (hg : g = K.map (fun u => (u, adjOf E u))) :
    ∀ (fuel : Nat) (d : List (String × Int)) (q P : List String),
      KahnInv K E P [] d q → K.length ≤ fuel + P.length →
      (kahnLoopG g fuel d q).2.1 = []
      ∧ KahnInv K E (P ++ (kahnLoopG g fuel d q).2.2) []
          (kahnLoopG g fuel d q).1 [] := by
  intro fuel
  induction fuel with
  | zero =>
    intro d q P h hlen
    cases q with
    | nil =>
      rw [kahnLoopG_nilq]
      exact ⟨rfl, by simpa using h⟩
    | cons cur rest =>
      exfalso
      have := nodup_length_le h.nodupA hK h.subA
      simp only [List.length_append, List.length_cons] at this
      omega
  | succ n ih =>
    intro d q P h hlen
    cases q with
    | nil =>
      rw [kahnLoopG_nilq]
      exact ⟨rfl, by simpa using h⟩
    | cons cur rest =>
      have hcurK : cur ∈ K := h.subA cur (by simp)
      have hcurP : cur ∉ P := by
        intro hmem
        exact (List.nodup_append.mp h.nodupA).2.2 hmem (List.mem_cons_self cur rest)
      have hzero : countE E cur P = 0 := by
        have := (h.memIff cur hcurK).mp (by simp)
        simpa using this
      have hinner : KahnInv K E (P ++ [cur]) (adjOf E cur) d rest := by
        refine ⟨?_, ?_, ?_, ?_, ?_, ?_⟩
        · rw [List.append_assoc, List.singleton_append]
          exact h.nodupA
        · intro x hx
          rw [List.append_assoc, List.singleton_append] at hx
          exact h.subA x hx
        · intro x hx
          obtain ⟨p, hpE, _, hpx⟩ := mem_adjOf hx
          exact hpx ▸ (HE p hpE).2
        · rw [h.degForm]
          refine List.map_congr_left ?_
          intro v hv
          refine congrArg (Prod.mk v) (congrArg Nat.cast ?_)
          have := countE_pop (E := E) hcurP v
          simpa using this
        · intro v hv
          rw [List.append_assoc, List.singleton_append]
          have := h.memIff v hv
          simp only [countOcc_nil, Nat.add_zero] at this
          rw [this, countE_pop hcurP v]
        · intro p hp hp2
          rcases List.mem_append.mp hp2 with hmem | hmem
          · obtain ⟨h1, h2⟩ := h.topo p hp hmem
            exact ⟨List.mem_append_left _ h1,
              by rw [posIn_append_of_mem h1, posIn_append_of_mem hmem]; exact h2⟩
          · rw [List.mem_singleton] at hmem
            have hsrc : p.1 ∈ P := countE_zero_sources (hmem ▸ hzero) p hp rfl
            refine ⟨List.mem_append_left _ hsrc, ?_⟩
            rw [posIn_append_of_mem hsrc, hmem, posIn_append_self hcurP]
            exact posIn_lt_length hsrc
      have hstep := neighborLoop_inv hK (adjOf E cur) d rest (P ++ [cur]) hinner
      have hgcur : dget [] g cur = adjOf E cur := by
        rw [hg]; exact dget_map _ _ hcurK
      simp only [kahnLoopG]
      rw [hgcur]
      have hlen' : K.length ≤ n + (P ++ [cur]).length := by
        simp only [List.length_append, List.length_cons, List.length_nil]
        omega
      obtain ⟨hq, hinv⟩ := ih (neighborLoop (adjOf E cur) d rest).1
        (neighborLoop (adjOf E cur) d rest).2 (P ++ [cur]) hstep hlen'
      refine ⟨hq, ?_⟩
      rw [show P ++ cur :: (kahnLoopG g n (neighborLoop (adjOf E cur) d rest).1
            (neighborLoop (adjOf E cur) d rest).2).2.2
          = (P ++ [cur]) ++ (kahnLoopG g n (neighborLoop (adjOf E cur) d rest).1
            (neighborLoop (adjOf E cur) d rest).2).2.2 by
        rw [List.append_assoc, List.singleton_append]]
      exact hinv

/-! ## Assembly: the characterization of a full `check_dag` run -/

theorem countE_nil (E : List (String × String)) (v : String) :
    countE E v [] = E.countP (fun p => decide (p.2 = v)) := by
  unfold countE
  induction E with
  | nil => rfl
  | cons p t ih => simp [List.countP_cons, ih]

theorem validPairs_mem {nodes : List Node} {edges : List Edge} :
    ∀ p ∈ validPairs nodes edges, p.1 ∈ theKeys nodes ∧ p.2 ∈ theKeys nodes := by
  intro p hp
  simp only [validPairs, List.mem_filter, Bool.and_eq_true, decide_eq_true_eq] at hp
  exact hp.2

/-- The final state of the (ghost) Kahn loop of a `check_dag` run. -/
def finalState (nodes : List Node) (edges : List Edge) :
    List (String × Int) × List String × List String :=
  kahnLoopG (builtMaps nodes edges).1 (dkeys (builtMaps nodes edges).2).length
    (builtMaps nodes edges).2 (seedLoop (builtMaps nodes edges).2)

/-- The list of node ids popped from the queue (in pop order) during a
`check_dag` run; the processed counter ends at its length. -/
def poppedList (nodes : List Node) (edges : List Edge) : List String :=
  (finalState nodes edges).2.2

theorem finalState_spec (nodes : List Node) (edges : List Edge) :
    (finalState nodes edges).2.1 = []
    ∧ (poppedList nodes edges).Nodup
    ∧ (∀ x ∈ poppedList nodes edges, x ∈ theKeys nodes)
    ∧ (∀ v ∈ theKeys nodes,
        (v ∈ poppedList nodes edges ↔
          countE (validPairs nodes edges) v (poppedList nodes edges) = 0))
    ∧ TopoSorted (validPairs nodes edges) (poppedList nodes edges) := by
  obtain ⟨_, _, hK, _⟩ := theKeys_spec nodes
  have hb := builtMaps_char nodes edges
  have hb1 : (builtMaps nodes edges).1
      = (theKeys nodes).map (fun u => (u, adjOf (validPairs nodes edges) u)) := by
    rw [hb]
  have hb2 : (builtMaps nodes edges).2
      = (theKeys nodes).map (fun v => (v,
          ((validPairs nodes edges).countP (fun p => decide (p.2 = v)) : Int))) := by
    rw [hb]
  have hfuel : (dkeys (builtMaps nodes edges).2).length = (theKeys nodes).length := by
    rw [hb2, dkeys_map]
  have hseed : seedLoop (builtMaps nodes edges).2
      = (theKeys nodes).filter (fun k => decide
          (((validPairs nodes edges).countP (fun p => decide (p.2 = k)) : Int) = 0)) := by
    rw [hb2, seedLoop_char]
  have hinit : KahnInv (theKeys nodes) (validPairs nodes edges) [] []
      (builtMaps nodes edges).2 (seedLoop (builtMaps nodes edges).2) := by
    refine ⟨?_, ?_, ?_, ?_, ?_, ?_⟩
    · rw [List.nil_append, hseed]
      exact hK.filter _
    · intro x hx
      rw [List.nil_append, hseed] at hx
      exact List.mem_of_mem_filter hx
    · intro x hx; cases hx
    · rw [hb2]
      refine List.map_congr_left ?_
      intro v _
      refine congrArg (Prod.mk v) (congrArg Nat.cast ?_)
      rw [countE_nil, countOcc_nil, Nat.add_zero]
    · intro v hv
      rw [List.nil_append, hseed, List.mem_filter, countE_nil, countOcc_nil,
        Nat.add_zero]
      simp [hv]
    · intro p _ hp; cases hp
  obtain ⟨hq, hfin⟩ := kahnLoopG_inv hK validPairs_mem hb1
    (dkeys (builtMaps nodes edges).2).length (builtMaps nodes edges).2
    (seedLoop (builtMaps nodes edges).2) [] hinit (by rw [hfuel]; simp)
  refine ⟨hq, ?_, ?_, ?_, hfin.topo⟩
  · have := hfin.nodupA
    simpa [finalState, poppedList] using this
  · intro x hx
    exact hfin.subA x (by simpa [finalState, poppedList] using hx)
  · intro v hv
    have := hfin.memIff v hv
    simpa [finalState, poppedList] using this

theorem check_dag_eq_popped {nodes : List Node} {edges : List Edge}
    (h1 : nodes ≠ []) (h2 : edges ≠ []) :
    check_dag nodes edges = ((poppedList nodes edges).length == nodes.length) := by
  unfold check_dag
  rw [if_neg (by simp [List.isEmpty_iff, h1, h2])]
  rw [kahnLoop_eq_ghost]
  simp [poppedList, finalState]

/-! ## Cycles versus topological orders -/

theorem idPairs_eq_validPairs (nodes : List Node) (edges : List Edge) :
    idPairs nodes edges = validPairs nodes edges := by
  obtain ⟨-, -, -, hmem⟩ := theKeys_spec nodes
  unfold idPairs validPairs
  refine (List.filter_congr ?_).symm
  intro p _
  simp [hmem]

theorem nodeIds_length (nodes : List Node) : (nodeIds nodes).length = nodes.length :=
  List.length_map _ _

theorem theKeys_toFinset (nodes : List Node) :
    (theKeys nodes).toFinset = (nodeIds nodes).toFinset := by
  obtain ⟨-, -, -, hmem⟩ := theKeys_spec nodes
  ext x
  simp [List.mem_toFinset, hmem x]

theorem theKeys_length_eq {nodes : List Node} (hnd : (nodeIds nodes).Nodup) :
    (theKeys nodes).length = nodes.length := by
  obtain ⟨-, -, hK, -⟩ := theKeys_spec nodes
  calc (theKeys nodes).length = (theKeys nodes).toFinset.card :=
        (List.toFinset_card_of_nodup hK).symm
    _ = (nodeIds nodes).toFinset.card := by rw [theKeys_toFinset]
    _ = (nodeIds nodes).length := List.toFinset_card_of_nodup hnd
    _ = nodes.length := nodeIds_length nodes

theorem theKeys_length_lt {nodes : List Node} (hnd : ¬(nodeIds nodes).Nodup) :
    (theKeys nodes).length < nodes.length := by
  obtain ⟨-, -, hK, -⟩ := theKeys_spec nodes
  have hsl := List.dedup_sublist (nodeIds nodes)
  have hle := hsl.length_le
  have hne : (nodeIds nodes).dedup.length ≠ (nodeIds nodes).length := by
    intro he
    exact hnd (hsl.eq_of_length he ▸ List.nodup_dedup (nodeIds nodes))
  have h1 : (theKeys nodes).length = (nodeIds nodes).dedup.length := by
    calc (theKeys nodes).length = (theKeys nodes).toFinset.card :=
          (List.toFinset_card_of_nodup hK).symm
      _ = (nodeIds nodes).toFinset.card := by rw [theKeys_toFinset]
      _ = (nodeIds nodes).dedup.length := List.card_toFinset _
  rw [← nodeIds_length nodes]
  omega

theorem chain_lt_le (F : String → Nat) :
    ∀ (c : List String) (a : String),
      List.Chain (fun x y => F x < F y) a c → F a ≤ F (c.getLastD a) := by
  intro c
  induction c with
  | nil => intro a _; exact le_refl _
  | cons b t ih =>
    intro a h
    rw [List.chain_cons] at h
    rw [List.getLastD_cons]
    exact le_trans (le_of_lt h.1) (ih b h.2)

/-- A list that is topologically sorted and covers the target of every edge
admits no closed walk. -/
theorem no_cycle_of_topo {E : List (String × String)} {P : List String}
    (htopo : TopoSorted E P) (hall : ∀ p ∈ E, p.2 ∈ P) : ¬ hasCycle E := by
  rintro ⟨a, c, hchain, hclose⟩
  have hlt : ∀ x y, (x, y) ∈ E → posIn P x < posIn P y := fun x y hxy =>
    (htopo (x, y) hxy (hall (x, y) hxy)).2
  have hc2 : List.Chain (fun x y => posIn P x < posIn P y) a c :=
    List.Chain.imp (fun x y h => hlt x y h) hchain
  have h1 : posIn P a ≤ posIn P (c.getLastD a) := chain_lt_le (posIn P) c a hc2
  have h2 : posIn P (c.getLastD a) < posIn P a := hlt _ _ hclose
  omega

/-- `[h (m), h (m-1), ..., h 1]`: a descending sampling of an iteration. -/
def downList (h : Nat → String) : Nat → List String
  | 0 => []
  | m + 1 => h (m + 1) :: downList h m

theorem downList_chain {R : String → String → Prop} (h : Nat → String)
    (hR : ∀ k, R (h (k + 1)) (h k)) :
    ∀ m, List.Chain R (h (m + 1)) (downList h m) := by
  intro m
  induction m with
  | zero => exact List.Chain.nil
  | succ k ih => exact List.chain_cons.mpr ⟨hR (k + 1), ih⟩

theorem downList_lastD (h : Nat → String) :
    ∀ m, (downList h m).getLastD (h (m + 1)) = h 1 := by
  intro m
  induction m with
  | zero => rfl
  | succ k ih => rw [downList, List.getLastD_cons, ih]

/-- A repetition in the backward-predecessor iteration yields a closed walk. -/
theorem cycle_of_iterate {E : List (String × String)} (f : String → String)
    (v0 : String) (hedge : ∀ n, (f^[n + 1] v0, f^[n] v0) ∈ E) {i j : Nat}
    (hij : i < j) (heq : f^[i] v0 = f^[j] v0) : hasCycle E := by
  have hR : ∀ k, (f^[i + (k + 1)] v0, f^[i + k] v0) ∈ E := by
    intro k
    have := hedge (i + k)
    rw [show i + (k + 1) = (i + k) + 1 by omega]
    exact this
  refine ⟨_, downList (fun k => f^[i + k] v0) (j - i - 1),
    downList_chain (fun k => f^[i + k] v0) hR (j - i - 1), ?_⟩
  rw [downList_lastD]
  have h1 : f^[i + (j - i - 1 + 1)] v0 = f^[i] v0 := by
    rw [show i + (j - i - 1 + 1) = j by omega]
    exact heq.symm
  rw [h1]
  have h2 := hR 0
  simpa using h2

/-- If some key is never popped, the kept edges contain a closed walk. -/
theorem cycle_of_incomplete {nodes : List Node} {edges : List Edge}
    (hmiss : ∃ v ∈ theKeys nodes, v ∉ poppedList nodes edges) :
    hasCycle (validPairs nodes edges) := by
  obtain ⟨-, _, -, hmem, -⟩ := finalState_spec nodes edges
  classical
  obtain ⟨v0, hv0K, hv0P⟩ := hmiss
  have hSmem : ∀ v : String,
      v ∈ (theKeys nodes).toFinset \ (poppedList nodes edges).toFinset ↔
        (v ∈ theKeys nodes ∧ v ∉ poppedList nodes edges) := by
    intro v
    simp [Finset.mem_sdiff, List.mem_toFinset]
  set S : Finset String := (theKeys nodes).toFinset \ (poppedList nodes edges).toFinset
    with hS
  have hv0 : v0 ∈ S := (hSmem v0).mpr ⟨hv0K, hv0P⟩
  have hstep : ∀ v : String, ∃ u : String,
      v ∈ S → (u ∈ S ∧ (u, v) ∈ validPairs nodes edges) := by
    intro v
    by_cases hv : v ∈ S
    · obtain ⟨hvK, hvP⟩ := (hSmem v).mp hv
      have hne : countE (validPairs nodes edges) v (poppedList nodes edges) ≠ 0 :=
        fun h0 => hvP ((hmem v hvK).mpr h0)
      have hpos := Nat.pos_of_ne_zero hne
      obtain ⟨p, hpE, hp⟩ := List.countP_pos_iff.mp hpos
      simp only [Bool.and_eq_true, decide_eq_true_eq] at hp
      refine ⟨p.1, fun _ => ⟨?_, ?_⟩⟩
      · exact (hSmem p.1).mpr ⟨(validPairs_mem p hpE).1, hp.2⟩
      · have : (p.1, p.2) ∈ validPairs nodes edges := hpE
        rw [hp.1] at this
        exact this
    · exact ⟨v, fun h => absurd h hv⟩
  choose f hf using hstep
  have hiter : ∀ n, f^[n] v0 ∈ S := by
    intro n
    induction n with
    | zero => exact hv0
    | succ k ih =>
      rw [Function.iterate_succ_apply']
      exact (hf _ ih).1
  have hedge : ∀ n, (f^[n + 1] v0, f^[n] v0) ∈ validPairs nodes edges := by
    intro n
    rw [Function.iterate_succ_apply']
    exact (hf _ (hiter n)).2
  have hcard : S.card < (Finset.range (S.card + 1)).card := by simp
  obtain ⟨i, hi, j, hj, hne, heq⟩ :=
    Finset.exists_ne_map_eq_of_card_lt_of_maps_to hcard (fun n _ => hiter n)
  rcases Nat.lt_or_ge i j with hij | hij
  · exact cycle_of_iterate f v0 hedge hij heq
  · have hji : j < i := by omega
    exact cycle_of_iterate f v0 hedge hji heq.symm

/-- If every key is popped, the kept edges admit no closed walk. -/
theorem no_cycle_of_complete {nodes : List Node} {edges : List Edge}
    (hall : ∀ v ∈ theKeys nodes, v ∈ poppedList nodes edges) :
    ¬ hasCycle (validPairs nodes edges) := by
  obtain ⟨-, -, -, -, htopo⟩ := finalState_spec nodes edges
  apply no_cycle_of_topo htopo
  intro p hp
  exact hall p.2 (validPairs_mem p hp).2

theorem subset_of_length_le {P K : List String} (hP : P.Nodup) (hK : K.Nodup)
    (hsub : ∀ x ∈ P, x ∈ K) (hlen : K.length ≤ P.length) : ∀ x ∈ K, x ∈ P := by
  have h3 : P.toFinset ⊆ K.toFinset := by
    intro x hx
    rw [List.mem_toFinset] at hx ⊢
    exact hsub x hx
  have hcards : K.toFinset.card ≤ P.toFinset.card := by
    rw [List.toFinset_card_of_nodup hP, List.toFinset_card_of_nodup hK]
    exact hlen
  have heq : P.toFinset = K.toFinset := Finset.eq_of_subset_of_card_le h3 hcards
  intro x hx
  rw [← List.mem_toFinset, heq, List.mem_toFinset]
  exact hx

/-- Central correctness helper: for distinct node ids and a nonempty graph,
`check_dag` returns true exactly when the submitted graph (restricted to edges
with both endpoints among the node ids) has no closed walk. -/
theorem check_dag_true_iff {nodes : List Node} {edges : List Edge}
    (hnd : (nodeIds nodes).Nodup) (h1 : nodes ≠ []) (h2 : edges ≠ []) :
    (check_dag nodes edges = true ↔ ¬ hasCycle (idPairs nodes edges)) := by
  rw [idPairs_eq_validPairs, check_dag_eq_popped h1 h2]
  obtain ⟨-, hndP, hsub, -, -⟩ := finalState_spec nodes edges
  obtain ⟨-, -, hK, -⟩ := theKeys_spec nodes
  have hKlen : (theKeys nodes).length = nodes.length := theKeys_length_eq hnd
  have hPle : (poppedList nodes edges).length ≤ (theKeys nodes).length :=
    nodup_length_le hndP hK hsub
  constructor
  · intro htrue
    have hlen : (poppedList nodes edges).length = nodes.length := by
      simpa using htrue
    exact no_cycle_of_complete
      (subset_of_length_le hndP hK hsub (by omega))
  · intro hnc
    by_contra hfalse
    have hlen : (poppedList nodes edges).length ≠ nodes.length := by
      simpa using hfalse
    have hmiss : ∃ v ∈ theKeys nodes, v ∉ poppedList nodes edges := by
      by_contra hall
      push_neg at hall
      have := nodup_length_le hK hndP hall
      omega
    exact hnc (cycle_of_incomplete hmiss)

/-! ## Projection: the analysis reads only ids and (source, target) pairs -/

/-- `initLoop` with nodes replaced by their ids (the only field it reads). -/
def initLoopCore : (List (String × List String) × List (String × Int)) →
    List String → (List (String × List String) × List (String × Int))
  | st, [] => st
  | (g, d), s :: rest => initLoopCore (dinsert g s [], dinsert d s 0) rest

/-- `edgeLoop` with edges replaced by their (source, target) pairs (the only
fields it reads). -/
def edgeLoopCore : (List (String × List String) × List (String × Int)) →
    List (String × String) → (List (String × List String) × List (String × Int))
  | st, [] => st
  | (g, d), p :: rest =>
    if p.1 ∈ dkeys g ∧ p.2 ∈ dkeys g then
      edgeLoopCore (dupd g p.1 (fun l => l ++ [p.2]),
                    dupd d p.2 (fun x => x + 1)) rest
    else
      edgeLoopCore (g, d) rest

/-- `check_dag` as a function of the id sequence and the endpoint pairs only. -/
def check_dag_core (ids : List String) (prs : List (String × String)) : Bool :=
  if ids.isEmpty || prs.isEmpty then true
  else
    ((kahnLoop (edgeLoopCore (initLoopCore ([], []) ids) prs).1
      (dkeys (edgeLoopCore (initLoopCore ([], []) ids) prs).2).length
      (edgeLoopCore (initLoopCore ([], []) ids) prs).2
      (seedLoop (edgeLoopCore (initLoopCore ([], []) ids) prs).2) 0).2.2 == ids.length)

theorem initLoop_eq_core :
    ∀ (ns : List Node) (st : List (String × List String) × List (String × Int)),
      initLoop st ns = initLoopCore st (nodeIds ns) := by
  intro ns
  induction ns with
  | nil => intro st; rfl
  | cons n rest ih =>
    intro st
    cases st with
    | mk g d => simp [initLoop, initLoopCore, ih, nodeIds]

theorem edgeLoop_eq_core :
    ∀ (es : List Edge) (st : List (String × List String) × List (String × Int)),
      edgeLoop st es = edgeLoopCore st (edgePairs es) := by
  intro es
  induction es with
  | nil => intro st; rfl
  | cons e rest ih =>
    intro st
    cases st with
    | mk g d =>
      simp only [edgeLoop, edgePairs_cons, edgeLoopCore]
      by_cases h : e.source ∈ dkeys g ∧ e.target ∈ dkeys g
      · rw [if_pos h, if_pos h, ih]; rfl
      · rw [if_neg h, if_neg h, ih]; rfl

theorem isEmpty_nodeIds (nodes : List Node) :
    (nodeIds nodes).isEmpty = nodes.isEmpty := by
  cases nodes <;> rfl

theorem isEmpty_edgePairs (edges : List Edge) :
    (edgePairs edges).isEmpty = edges.isEmpty := by
  cases edges <;> rfl

theorem check_dag_eq_core (nodes : List Node) (edges : List Edge) :
    check_dag nodes edges = check_dag_core (nodeIds nodes) (edgePairs edges) := by
  unfold check_dag check_dag_core builtMaps
  rw [initLoop_eq_core, edgeLoop_eq_core, isEmpty_nodeIds, isEmpty_edgePairs,
    nodeIds_length]

/-! ## The procedure described by the specification (§4.1-§4.2), for C7 -/

/-- Spec §4.1: the Ingestor's adjacency mapping — every node id present, each
mapped to the ordered list of targets of its valid outgoing edges, in edge
submission order; edges whose source or target id is absent are silently
dropped. -/
def specAdjacency (nodes : List Node) (edges : List Edge) :
    List (String × List String) :=
  (theKeys nodes).map (fun u => (u, adjOf (validPairs nodes edges) u))

/-- Spec §4.1: the Ingestor's in-degree mapping — each node id mapped to the
count of incoming valid edges. -/
def specInDegree (nodes : List Node) (edges : List Edge) : List (String × Int) :=
  (theKeys nodes).map (fun v => (v,
    ((validPairs nodes edges).countP (fun p => decide (p.2 = v)) : Int)))

/-- Spec §4.2 step 2: the FIFO work queue initialized with every node id whose
in-degree is exactly 0, in iteration order over the node id set. -/
def specSeed (nodes : List Node) (edges : List Edge) : List String :=
  (theKeys nodes).filter (fun k => decide
    (((validPairs nodes edges).countP (fun p => decide (p.2 = k)) : Int) = 0))

/-- Spec §4.2 step 3 (inner part): decrement the in-degree of one outgoing
neighbor of the removed node; if it reaches exactly 0, append it to the back
of the queue. -/
def specDecrement (st : List (String × Int) × List String) (n : String) :
    List (String × Int) × List String :=
  let d2 := dupd st.1 n (fun x => x - 1)
  (d2, if dget 0 d2 n = 0 then st.2 ++ [n] else st.2)

/-- Spec §4.2 steps 3-4: repeatedly remove the front element of the queue,
increment the processed counter and decrement all outgoing neighbors,
terminating when the queue is empty (fuel-bounded exactly like the code's
loop). -/
def specRun (adj : List (String × List String)) :
    Nat → (List (String × Int) × List String × Nat) →
    (List (String × Int) × List String × Nat)
  | 0, st => st
  | fuel + 1, (d, q, c) =>
    match q with
    | [] => (d, [], c)
    | current :: rest =>
      let st2 := (dget [] adj current).foldl specDecrement (d, rest)
      specRun adj fuel (st2.1, st2.2, c + 1)

/-- Spec §4.2: steps 1-5 assembled — trivial cases first, then the elimination
loop, then the comparison of the processed counter with the total number of
nodes. -/
def specCheck (nodes : List Node) (edges : List Edge) : Bool :=
  if nodes.isEmpty || edges.isEmpty then true
  else
    (specRun (specAdjacency nodes edges) (theKeys nodes).length
      (specInDegree nodes edges, specSeed nodes edges, 0)).2.2 == nodes.length

theorem foldl_specDecrement_eq_neighborLoop :
    ∀ (ns : List String) (d : List (String × Int)) (q : List String),
      ns.foldl specDecrement (d, q) = neighborLoop ns d q := by
  intro ns
  induction ns with
  | nil => intro d q; rfl
  | cons n rest ih =>
    intro d q
    simp only [List.foldl_cons, neighborLoop, specDecrement]
    by_cases h : dget 0 (dupd d n (fun x => x - 1)) n = 0
    · rw [if_pos h, if_pos h, ih]
    · rw [if_neg h, if_neg h, ih]

theorem specRun_eq_kahnLoop (adj : List (String × List String)) :
    ∀ (fuel : Nat) (d : List (String × Int)) (q : List String) (c : Nat),
      specRun adj fuel (d, q, c) = kahnLoop adj fuel d q c := by
  intro fuel
  induction fuel with
  | zero =>
    intro d q c
    cases q <;> rfl
  | succ n ih =>
    intro d q c
    cases q with
    | nil => rfl
    | cons cur rest =>
      simp only [specRun, kahnLoop, foldl_specDecrement_eq_neighborLoop]
      exact ih _ _ _

/-! ## Small facts about the trivial cases -/

theorem check_dag_nil_left (edges : List Edge) : check_dag [] edges = true := by
  simp [check_dag]

theorem check_dag_nil_right (nodes : List Node) : check_dag nodes [] = true := by
  simp [check_dag]

theorem hasCycle_nil : ¬ hasCycle ([] : List (String × String)) := by
  rintro ⟨a, c, -, h⟩
  exact List.not_mem_nil _ h

theorem idPairs_nil_left (edges : List Edge) : idPairs [] edges = [] := by
  simp [idPairs, nodeIds]

theorem idPairs_nil_right (nodes : List Node) : idPairs nodes [] = [] := rfl

theorem idPairs_nil_of_dangling {nodes : List Node} {edges : List Edge}
    (h : ∀ e ∈ edges, e.source ∉ nodeIds nodes ∨ e.target ∉ nodeIds nodes) :
    idPairs nodes edges = [] := by
  rw [idPairs, List.filter_eq_nil_iff]
  intro p hp
  obtain ⟨e, he, hpe⟩ := List.mem_map.mp hp
  rcases h e he with h' | h' <;> simp [← hpe, h']

theorem validPairs_filter_valid (nodes : List Node) (edges : List Edge) :
    validPairs nodes (edges.filter (fun e =>
        decide (e.source ∈ nodeIds nodes) && decide (e.target ∈ nodeIds nodes)))
      = validPairs nodes edges := by
  obtain ⟨-, -, -, hmem⟩ := theKeys_spec nodes
  unfold validPairs edgePairs
  induction edges with
  | nil => rfl
  | cons e rest ih =>
    by_cases h : e.source ∈ nodeIds nodes ∧ e.target ∈ nodeIds nodes
    · have h1 : e.source ∈ theKeys nodes := (hmem _).mpr h.1
      have h2 : e.target ∈ theKeys nodes := (hmem _).mpr h.2
      simp only [List.filter_cons, h.1, h.2, decide_True, Bool.and_self, if_true,
        List.map_cons, h1, h2]
      rw [ih]
    · have h' : ¬(e.source ∈ theKeys nodes ∧ e.target ∈ theKeys nodes) := by
        rw [hmem, hmem]; exact h
      rcases Decidable.not_and_iff_or_not.mp h with hx | hx <;>
        rcases Decidable.not_and_iff_or_not.mp h' with hy | hy <;>
          simp only [List.filter_cons, hx, hy, decide_False, Bool.false_and,
            Bool.and_false, if_false, List.map_cons, ih] <;>
        simp [hx, hy, ih]

/-! ## Concrete fixtures for the witnesses -/

def nodeA : Node :=
  { id := "A", type := "customInput", position := [("x", 0)], data := [] }

def nodeA2 : Node :=
  { id := "A", type := "text", position := [("x", 2)], data := [("t", "u")] }

def nodeB : Node :=
  { id := "B", type := "customOutput", position := [("x", 1)], data := [] }

def nodeB2 : Node :=
  { id := "B", type := "llm", position := [("y", 5)], data := [("model", "m")] }

def edgeAB : Edge := { id := "e1", source := "A", target := "B" }

def edgeAB2 : Edge :=
  { id := "zz", source := "A", target := "B", sourceHandle := some "out",
    targetHandle := some "in" }

def edgeAA : Edge := { id := "e2", source := "A", target := "A" }

def edgeAX : Edge := { id := "e3", source := "A", target := "X" }

/-! ## The claims -/

/-- C1: for every request whose node ids are pairwise distinct, the analysis
returns `is_dag = true` iff the directed graph whose vertices are the node ids
and whose edges are the submitted edges with both endpoints present in the
node set contains no cycle. -/
theorem C1_is_dag_iff_acyclic (nodes : List Node) (edges : List Edge)
    (hnd : (nodeIds nodes).Nodup) :
    (check_dag nodes edges = true ↔ ¬ hasCycle (idPairs nodes edges)) := by
  by_cases h1 : nodes = []
  · subst h1
    rw [check_dag_nil_left, idPairs_nil_left]
    simp only [eq_self_iff_true, true_iff]
    exact hasCycle_nil
  · by_cases h2 : edges = []
    · subst h2
      rw [check_dag_nil_right, idPairs_nil_right]
      simp only [eq_self_iff_true, true_iff]
      exact hasCycle_nil
    · exact check_dag_true_iff hnd h1 h2

/-- Witness for C1 at the chain A → B. -/
theorem C1_is_dag_iff_acyclic_witness :
    (check_dag [nodeA, nodeB] [edgeAB] = true ↔
      ¬ hasCycle (idPairs [nodeA, nodeB] [edgeAB])) :=
  C1_is_dag_iff_acyclic [nodeA, nodeB] [edgeAB] (by decide)

theorem parse_pipeline_eq (p : PipelineRequest) :
    parse_pipeline p = Except.ok
      { num_nodes := p.nodes.length, num_edges := p.edges.length,
        is_dag := check_dag p.nodes p.edges } := rfl

/-- C2: on every success the returned `num_nodes` is the length of the
submitted node array and `num_edges` the length of the submitted edge array,
whatever the graph looks like. -/
theorem C2_counts (p : PipelineRequest) (r : ParseResult)
    (h : parse_pipeline p = Except.ok r) :
    r.num_nodes = p.nodes.length ∧ r.num_edges = p.edges.length := by
  rw [parse_pipeline_eq] at h
  simp only [Except.ok.injEq] at h
  subst h
  exact ⟨rfl, rfl⟩

/-- Witness for C2 on a request with duplicate ids and a dangling edge. -/
theorem C2_counts_witness :
    ({ num_nodes := ([nodeA, nodeA2] : List Node).length,
       num_edges := ([edgeAX] : List Edge).length,
       is_dag := check_dag [nodeA, nodeA2] [edgeAX] } : ParseResult).num_nodes
        = ([nodeA, nodeA2] : List Node).length
    ∧ ({ num_nodes := ([nodeA, nodeA2] : List Node).length,
         num_edges := ([edgeAX] : List Edge).length,
         is_dag := check_dag [nodeA, nodeA2] [edgeAX] } : ParseResult).num_edges
        = ([edgeAX] : List Edge).length :=
  C2_counts { nodes := [nodeA, nodeA2], edges := [edgeAX] } _ rfl

/-- C3: an edge with an endpoint outside the node set is silently dropped: the
built adjacency and in-degree dicts equal those built from the
valid-endpoints edges alone, and a request of isolated nodes (distinct ids)
whose edges are all dangling yields `is_dag = true`. -/
theorem C3_dangling_edges_ignored (nodes : List Node) (edges : List Edge) :
    builtMaps nodes edges
      = builtMaps nodes (edges.filter (fun e =>
          decide (e.source ∈ nodeIds nodes) && decide (e.target ∈ nodeIds nodes)))
    ∧ ((nodeIds nodes).Nodup →
        (∀ e ∈ edges, e.source ∉ nodeIds nodes ∨ e.target ∉ nodeIds nodes) →
        check_dag nodes edges = true) := by
  constructor
  · rw [builtMaps_char, builtMaps_char, validPairs_filter_valid]
  · intro hnd hdangling
    by_cases h1 : nodes = []
    · subst h1; exact check_dag_nil_left edges
    · by_cases h2 : edges = []
      · subst h2; exact check_dag_nil_right nodes
      · rw [check_dag_true_iff hnd h1 h2, idPairs_nil_of_dangling hdangling]
        exact hasCycle_nil

/-- Witness for C3: two isolated nodes and one dangling edge. -/
theorem C3_dangling_edges_ignored_witness :
    (builtMaps [nodeA, nodeB] [edgeAX]
      = builtMaps [nodeA, nodeB] ([edgeAX].filter (fun e =>
          decide (e.source ∈ nodeIds [nodeA, nodeB])
            && decide (e.target ∈ nodeIds [nodeA, nodeB]))))
    ∧ check_dag [nodeA, nodeB] [edgeAX] = true := by
  have h := C3_dangling_edges_ignored [nodeA, nodeB] [edgeAX]
  exact ⟨h.1, h.2 (by decide) (by decide)⟩

/-- C4: an empty node list, or an empty edge list, short-circuits to
`is_dag = true`. -/
theorem C4_trivial_cases (nodes : List Node) (edges : List Edge)
    (h : nodes = [] ∨ edges = []) : check_dag nodes edges = true := by
  rcases h with h | h
  · subst h; exact check_dag_nil_left edges
  · subst h; exact check_dag_nil_right nodes

/-- Witness for C4: empty node list with an edge, and a node with no edges. -/
theorem C4_trivial_cases_witness :
    check_dag [] [edgeAB] = true ∧ check_dag [nodeA] [] = true :=
  ⟨C4_trivial_cases [] [edgeAB] (Or.inl rfl),
   C4_trivial_cases [nodeA] [] (Or.inr rfl)⟩

/-- C5: a request with at least two nodes sharing an id and a nonempty edge
list always yields `is_dag = false`: the dicts collapse the duplicate ids, so
the processed counter stays below `len(nodes)`. -/
theorem C5_duplicate_ids_always_false (nodes : List Node) (edges : List Edge)
    (hdup : ¬ (nodeIds nodes).Nodup) (hedges : edges ≠ []) :
    check_dag nodes edges = false := by
  have h1 : nodes ≠ [] := by
    intro h
    subst h
    exact hdup List.nodup_nil
  rw [check_dag_eq_popped h1 hedges]
  obtain ⟨-, hndP, hsub, -, -⟩ := finalState_spec nodes edges
  obtain ⟨-, -, hK, -⟩ := theKeys_spec nodes
  have hle : (poppedList nodes edges).length ≤ (theKeys nodes).length :=
    nodup_length_le hndP hK hsub
  have hlt := theKeys_length_lt hdup
  have hne : (poppedList nodes edges).length ≠ nodes.length := by omega
  exact beq_eq_false_iff_ne.mpr hne

/-- Witness for C5: duplicate id "A" and one edge; the graph described is
acyclic yet the checker answers false. -/
theorem C5_duplicate_ids_always_false_witness :
    check_dag [nodeA, nodeA2, nodeB] [edgeAB] = false :=
  C5_duplicate_ids_always_false [nodeA, nodeA2, nodeB] [edgeAB] (by decide)
    (List.cons_ne_nil _ _)

/-- C6: a single node with a single self-loop edge yields `is_dag = false`;
the self-loop is a valid edge and keeps the node's in-degree at 1 forever. -/
theorem C6_self_loop_false (n : Node) (e : Edge) (hs : e.source = n.id)
    (ht : e.target = n.id) : check_dag [n] [e] = false := by
  have hnd : (nodeIds [n]).Nodup := List.nodup_singleton _
  have hiff := check_dag_true_iff hnd (List.cons_ne_nil n []) (List.cons_ne_nil e [])
  have hcyc : hasCycle (idPairs [n] [e]) := by
    refine ⟨n.id, [], List.Chain.nil, ?_⟩
    show (n.id, n.id) ∈ idPairs [n] [e]
    simp [idPairs, hs, ht]
  rw [Bool.eq_false_iff]
  intro htrue
  exact (hiff.mp htrue) hcyc

/-- Witness for C6 at node A with edge A → A. -/
theorem C6_self_loop_false_witness : check_dag [nodeA] [edgeAA] = false :=
  C6_self_loop_false nodeA edgeAA rfl rfl

/-- C7: on nonempty node and edge sets the code's computation is exactly the
spec's procedure: seed the FIFO queue with all in-degree-0 ids in submission
order, repeatedly pop the front, count it, decrement its neighbors in edge
order, append a neighbor exactly when its in-degree reaches 0, stop on empty
queue, and compare the processed counter with the node count. -/
theorem C7_matches_spec_procedure (nodes : List Node) (edges : List Edge)
    (h1 : nodes ≠ []) (h2 : edges ≠ []) :
    check_dag nodes edges = specCheck nodes edges := by
  unfold check_dag specCheck
  rw [if_neg (by simp [List.isEmpty_iff, h1, h2]),
    if_neg (by simp [List.isEmpty_iff, h1, h2]), specRun_eq_kahnLoop]
  have hb := builtMaps_char nodes edges
  have hb1 : (builtMaps nodes edges).1 = specAdjacency nodes edges := by
    rw [hb]; rfl
  have hb2 : (builtMaps nodes edges).2 = specInDegree nodes edges := by
    rw [hb]; rfl
  have hseed : seedLoop (builtMaps nodes edges).2 = specSeed nodes edges := by
    rw [hb2]
    unfold specInDegree specSeed
    rw [seedLoop_char]
  have hfuel : (dkeys (builtMaps nodes edges).2).length = (theKeys nodes).length := by
    rw [hb2]
    unfold specInDegree
    rw [dkeys_map]
  rw [← hb1, ← hb2, ← hseed, ← hfuel]

/-- Witness for C7 at the chain A → B. -/
theorem C7_matches_spec_procedure_witness :
    check_dag [nodeA, nodeB] [edgeAB] = specCheck [nodeA, nodeB] [edgeAB] :=
  C7_matches_spec_procedure [nodeA, nodeB] [edgeAB] (List.cons_ne_nil _ _)
    (List.cons_ne_nil _ _)

/-- C8: the boolean depends only on the node id sequence and the edge
(source, target) sequence; type, position, data, edge id and handles are
irrelevant. -/
theorem C8_metadata_irrelevant (ns1 ns2 : List Node) (es1 es2 : List Edge)
    (hn : nodeIds ns1 = nodeIds ns2) (he : edgePairs es1 = edgePairs es2) :
    check_dag ns1 es1 = check_dag ns2 es2 := by
  rw [check_dag_eq_core, check_dag_eq_core, hn, he]

/-- Witness for C8: same ids and endpoints, different types, positions, data,
edge id and handles. -/
theorem C8_metadata_irrelevant_witness :
    check_dag [nodeA, nodeB] [edgeAB] = check_dag [nodeA2, nodeB2] [edgeAB2] :=
  C8_metadata_irrelevant [nodeA, nodeB] [nodeA2, nodeB2] [edgeAB] [edgeAB2]
    rfl rfl

/-- C9: the handler's try/except boundary: a body that raises with message `e`
makes the operation raise HTTP 500 with detail `"Error parsing pipeline: " ++ e`
rather than returning a payload, a body that returns passes through, and the
actual (non-raising) analysis body always produces the success object. -/
theorem C9_error_boundary (p : PipelineRequest)
    (body : Except String ParseResult) :
    (∀ e, body = Except.error e →
      tryBoundary body = Except.error
        { status_code := 500, detail := "Error parsing pipeline: " ++ e })
    ∧ (∀ r, body = Except.ok r → tryBoundary body = Except.ok r)
    ∧ parse_pipeline p = Except.ok
        { num_nodes := p.nodes.length, num_edges := p.edges.length,
          is_dag := check_dag p.nodes p.edges } := by
  refine ⟨?_, ?_, rfl⟩
  · intro e h; subst h; rfl
  · intro r h; subst h; rfl

/-- C10: the work-queue loop terminates for every input: with fuel equal to
the number of dict keys the queue is drained empty, and any extra fuel leaves
the result unchanged — the loop performs at most as many iterations as there
are keys, since each id is appended at most once. -/
theorem C10_loop_terminates (nodes : List Node) (edges : List Edge) :
    (kahnLoop (builtMaps nodes edges).1 (dkeys (builtMaps nodes edges).2).length
      (builtMaps nodes edges).2 (seedLoop (builtMaps nodes edges).2) 0).2.1 = []
    ∧ ∀ m, kahnLoop (builtMaps nodes edges).1
        ((dkeys (builtMaps nodes edges).2).length + m)
        (builtMaps nodes edges).2 (seedLoop (builtMaps nodes edges).2) 0
      = kahnLoop (builtMaps nodes edges).1 (dkeys (builtMaps nodes edges).2).length
        (builtMaps nodes edges).2 (seedLoop (builtMaps nodes edges).2) 0 := by
  obtain ⟨hq, -, -, -, -⟩ := finalState_spec nodes edges
  have hq' : (kahnLoopG (builtMaps nodes edges).1
      (dkeys (builtMaps nodes edges).2).length (builtMaps nodes edges).2
      (seedLoop (builtMaps nodes edges).2)).2.1 = [] := hq
  constructor
  · rw [kahnLoop_eq_ghost]
    exact hq'
  · intro m
    rw [kahnLoop_eq_ghost, kahnLoop_eq_ghost,
      kahnLoopG_fuel_add _ _ _ _ hq' m]

end VectorShift
